import Mathlib

/-!
Shallow embedding of the log-visualizer core
(src/log-visualizer/src/JsonLogViewer.jsx): line-oriented JSON extraction,
severity-level normalization, level catalog and the search/level filter.

JSON values are modelled by the inductive `Json`.  Number literals are
modelled as integers (`Int`); no property under verification involves a
non-integer numeric literal.  JavaScript strings are modelled by Lean
`String` (sequences of Unicode scalar values; lone UTF-16 surrogates are
outside the model).
-/

inductive Json where
  | null : Json
  | bool : Bool → Json
  | num : Int → Json
  | str : String → Json
  | arr : List Json → Json
  | obj : List (String × Json) → Json

/-- Result of `extractJsonObjects`: the parsed records in line order and the
count of ignored lines, mirroring the object `{ jsonObjects, ignoredLines }`
returned by the source. -/
structure ExtractionResult where
  jsonObjects : List Json
  ignoredLines : Nat

/-- Character-wise string map; used to model `toUpperCase` / `toLowerCase`
(the labels involved are ASCII, where the JavaScript and Lean char maps
agree). -/
def mapChars (f : Char → Char) (s : String) : String :=
  String.mk (s.data.map f)

/-- Models `String.prototype.toUpperCase`. -/
def upperStr (s : String) : String := mapChars Char.toUpper s

/-- Models `String.prototype.toLowerCase`. -/
def lowerStr (s : String) : String := mapChars Char.toLower s

/-- Models `String.prototype.includes`: `pat` occurs contiguously in
`hay`. -/
def charsIncludes (hay pat : List Char) : Bool :=
  match hay with
  | [] => pat.isEmpty
  | _ :: t => pat.isPrefixOf hay || charsIncludes t pat

/-- `hay.includes(pat)` on strings. -/
def strIncludes (hay pat : String) : Bool :=
  charsIncludes hay.data pat.data

/-- JavaScript truthiness of a JSON value: `""`, `0`, `false` and `null`
are falsy, everything else (including `{}` and `[]`) is truthy. -/
def jsTruthy : Json → Bool
  | .null => false
  | .bool b => b
  | .num n => n != 0
  | .str s => !s.isEmpty
  | .arr _ => true
  | .obj _ => true

mutual

/-- Models JavaScript `value.toString()` for parsed JSON values: strings
stay themselves, numbers print in decimal, booleans as `true`/`false`,
arrays join their elements with commas (null elements rendering as the
empty string, as `Array.prototype.toString` does) and plain objects
become `[object Object]`.  (`null.toString()` throws in JavaScript; the
source only converts truthy values, so the `.null` case is unreachable
from the call sites.) -/
def jsToString : Json → String
  | .null => "null"
  | .bool true => "true"
  | .bool false => "false"
  | .num n => toString n
  | .str s => s
  | .obj _ => "[object Object]"
  | .arr xs => jsToStringElems xs
termination_by structural v => v

/-- The comma-joined element rendering of `Array.prototype.toString`:
`null` elements render as the empty string. -/
def jsToStringElems : List Json → String
  | [] => ""
  | [.null] => ""
  | [x] => jsToString x
  | .null :: xs => "," ++ jsToStringElems xs
  | x :: xs => jsToString x ++ "," ++ jsToStringElems xs
termination_by structural xs => xs

end

/-- Lowercase hex digit for `n < 16`. -/
def hexDigit (n : Nat) : Char :=
  if n < 10 then Char.ofNat (48 + n) else Char.ofNat (87 + n)

/-- Escape one character the way `JSON.stringify` escapes characters
inside string literals. -/
def escapeJsonChar (c : Char) : String :=
  if c = '\x22' then "\\\x22"
  else if c = '\\' then "\\\\"
  else if c = '\x08' then "\\b"
  else if c = '\x09' then "\\t"
  else if c = '\x0a' then "\\n"
  else if c = '\x0c' then "\\f"
  else if c = '\x0d' then "\\r"
  else if c.toNat < 32 then "\\u00" ++ String.mk [hexDigit (c.toNat / 16), hexDigit (c.toNat % 16)]
  else String.mk [c]

/-- Escape every character of a string body. -/
def escapeChars : List Char → String
  | [] => ""
  | c :: cs => escapeJsonChar c ++ escapeChars cs

/-- A JSON string literal as `JSON.stringify` prints it. -/
def quoteJson (s : String) : String := "\x22" ++ escapeChars s.data ++ "\x22"

mutual

/-- Models `JSON.stringify(value)` (no indentation argument): canonical
compact JSON text, fields in insertion order, string literals escaped. -/
def jsonStringify : Json → String
  | .null => "null"
  | .bool true => "true"
  | .bool false => "false"
  | .num n => toString n
  | .str s => quoteJson s
  | .arr xs => "[" ++ jsonStringifyElems xs ++ "]"
  | .obj fs => "\x7b" ++ jsonStringifyFields fs ++ "\x7d"
termination_by structural v => v

/-- Comma-joined array elements of `JSON.stringify`. -/
def jsonStringifyElems : List Json → String
  | [] => ""
  | [x] => jsonStringify x
  | x :: xs => jsonStringify x ++ "," ++ jsonStringifyElems xs
termination_by structural xs => xs

/-- Comma-joined `"key":value` pairs of `JSON.stringify`. -/
def jsonStringifyFields : List (String × Json) → String
  | [] => ""
  | [(k, v)] => quoteJson k ++ ":" ++ jsonStringify v
  | (k, v) :: fs => quoteJson k ++ ":" ++ jsonStringify v ++ "," ++ jsonStringifyFields fs
termination_by structural fs => fs

end

/-- Field access `record.key` on a parsed JSON value: a lookup in the
object's field list (objects produced by the parser have distinct keys);
on non-objects the access yields no value (`undefined`). -/
def Json.getField : Json → String → Option Json
  | .obj fs, k => fs.lookup k
  | _, _ => none

/-- Models the JavaScript `a || b` chain over field accesses: the first
truthy value wins; an absent field or a falsy value falls through.  (In
JavaScript the chain can also return a final falsy value, but every call
site immediately re-tests truthiness, so returning `none` for that case
is observationally identical.) -/
def jsOr (a : Option Json) (b : Option Json) : Option Json :=
  match a with
  | some v => if jsTruthy v then some v else b
  | none => b

/-- The field chain `log.level || log.severity || log.log_level ||
log.logLevel` from `getLogLevel` and `extractLevels`, combined with the
truthiness test both call sites apply to its result (`if (level)` in
`extractLevels`, `level ? ... : 'UNKNOWN'` in `getLogLevel`): the chain
yields `some v` exactly when it produces a truthy `v`, and `none` when
every field is absent or falsy (the trailing `jsOr _ none` filters a
falsy final field the way the call sites' truthiness tests do). -/
def getLevelRaw (log : Json) : Option Json :=
  jsOr (log.getField "level")
    (jsOr (log.getField "severity")
      (jsOr (log.getField "log_level")
        (jsOr (log.getField "logLevel") none)))

/-- `getLogLevel` from the source: the first truthy level field, converted
to text and upper-cased; `"UNKNOWN"` otherwise. -/
def getLogLevel (log : Json) : String :=
  match getLevelRaw log with
  | some v => upperStr (jsToString v)
  | none => "UNKNOWN"

/-- The priority list of level field names, as written in the source. -/
def levelKeys : List String := ["level", "severity", "log_level", "logLevel"]

/-- Spec-side restatement of the resolver (for the refinement theorem of
C3): scan the four field names in priority order, take the first field
present with a truthy value, upper-case its text form; otherwise the
sentinel `"UNKNOWN"`. -/
def resolveLevelSpec (log : Json) : String :=
  match levelKeys.findSome? (fun k =>
      match log.getField k with
      | some v => if jsTruthy v then some v else none
      | none => none) with
  | some v => upperStr (jsToString v)
  | none => "UNKNOWN"

/-- The fixed severity hierarchy, lowest to highest. -/
def levelHierarchy : List String := ["DEBUG", "INFO", "WARN", "ERROR", "FATAL"]

/-- Models `Array.prototype.indexOf`: first index of `x`, or `-1`. -/
def jsIndexOf (x : String) : List String → Int
  | [] => -1
  | y :: ys =>
      if y = x then 0
      else
        let r := jsIndexOf x ys
        if r = -1 then -1 else r + 1

/-- `filterLogs` from the source, with the record set passed explicitly
(the source reads the component state `logs`; filtering is always applied
to that full record set).  First the level predicate: `"ALL"` passes
everything; a level found in the hierarchy (`indexOf(level) !== -1`) keeps
records whose resolved label is in `hierarchy.slice(selectedIndex)`;
otherwise exact match on the resolved label.  Then, for a non-empty term,
the case-insensitive substring search over `JSON.stringify(log)`. -/
def filterLogs (logs : List Json) (term level : String) : List Json :=
  let step1 :=
    if level ≠ "ALL" then
      let selectedIndex := jsIndexOf level levelHierarchy
      if selectedIndex ≠ -1 then
        let allowedLevels := levelHierarchy.drop selectedIndex.toNat
        logs.filter (fun log => allowedLevels.contains (getLogLevel log))
      else
        logs.filter (fun log => getLogLevel log == level)
    else logs
  if term ≠ "" then
    step1.filter (fun log => strIncludes (lowerStr (jsonStringify log)) (lowerStr term))
  else step1

/-- The deduplicated labels in insertion order: models the `Set` filled by
`extractLevels`' `forEach` loop (`Set` iteration order is insertion
order), which adds the upper-cased text of the level chain whenever that
chain is truthy. -/
def collectLevels (logs : List Json) : List String :=
  logs.foldl
    (fun levels log =>
      match getLevelRaw log with
      | some v =>
          let u := upperStr (jsToString v)
          if levels.contains u then levels else levels ++ [u]
      | none => levels)
    []

/-- Strict lexicographic comparison of character sequences (character
order is code-point order; for the code-unit ranges occurring in labels
this is exactly JavaScript's UTF-16 string comparison). -/
def charsLt : List Char → List Char → Bool
  | [], [] => false
  | [], _ :: _ => true
  | _ :: _, [] => false
  | a :: as, b :: bs =>
      if a < b then true else if b < a then false else charsLt as bs

/-- Non-strict lexicographic comparison of character sequences. -/
def charsLe : List Char → List Char → Bool
  | [], _ => true
  | _ :: _, [] => false
  | a :: as, b :: bs =>
      if a < b then true else if b < a then false else charsLe as bs

/-- Strict lexicographic string order. -/
def strLt (a b : String) : Bool := charsLt a.data b.data

/-- Non-strict lexicographic string order. -/
def strLe (a b : String) : Bool := charsLe a.data b.data

/-- One insertion step of an ascending insertion sort. -/
def insertSorted (s : String) : List String → List String
  | [] => [s]
  | t :: ts => if strLe s t then s :: t :: ts else t :: insertSorted s ts

/-- Ascending lexicographic sort; models the default
`Array.prototype.sort()` on an array of strings (for the code-unit ranges
occurring in labels, JavaScript UTF-16 comparison and Lean's character
order agree). -/
def sortStrings : List String → List String
  | [] => []
  | s :: ss => insertSorted s (sortStrings ss)

/-- `extractLevels` from the source:
`['ALL', ...Array.from(levels).sort()]`. -/
def extractLevels (logs : List Json) : List String :=
  "ALL" :: sortStrings (collectLevels logs)

/-- JSON insignificant whitespace (RFC 8259): space, tab, newline,
carriage return. -/
def jsonWs (c : Char) : Bool :=
  c == ' ' || c == '\t' || c == '\n' || c == '\r'

/-- Skip insignificant whitespace. -/
def skipWs (cs : List Char) : List Char := cs.dropWhile jsonWs

/-- Value of a hexadecimal digit. -/
def hexVal (c : Char) : Option Nat :=
  if '0' ≤ c ∧ c ≤ '9' then some (c.toNat - 48)
  else if 'a' ≤ c ∧ c ≤ 'f' then some (c.toNat - 87)
  else if 'A' ≤ c ∧ c ≤ 'F' then some (c.toNat - 55)
  else none

/-- Body of a JSON string literal, after the opening quote: models
`JSON.parse`'s string grammar (escape sequences, `\uXXXX` including
surrogate pairs, raw control characters rejected).  Returns the decoded
string and the input after the closing quote.  Lone `\uXXXX` surrogates
are outside the model (Lean characters are Unicode scalar values) and
fail the parse. -/
def parseStringBody : List Char → List Char → Option (String × List Char)
  | [], _ => none
  | '\x22' :: rest, acc => some (String.mk acc.reverse, rest)
  | '\\' :: rest, acc =>
    match rest, acc with
    | '\x22' :: r, acc => parseStringBody r ('\x22' :: acc)
    | '\\' :: r, acc => parseStringBody r ('\\' :: acc)
    | '/' :: r, acc => parseStringBody r ('/' :: acc)
    | 'b' :: r, acc => parseStringBody r ('\x08' :: acc)
    | 'f' :: r, acc => parseStringBody r ('\x0c' :: acc)
    | 'n' :: r, acc => parseStringBody r ('\x0a' :: acc)
    | 'r' :: r, acc => parseStringBody r ('\x0d' :: acc)
    | 't' :: r, acc => parseStringBody r ('\x09' :: acc)
    | 'u' :: h1 :: h2 :: h3 :: h4 :: r, acc =>
      match hexVal h1, hexVal h2, hexVal h3, hexVal h4 with
      | some a, some b, some c, some d =>
        let code := ((a * 16 + b) * 16 + c) * 16 + d
        if 55296 ≤ code ∧ code ≤ 56319 then
          match r with
          | '\\' :: 'u' :: g1 :: g2 :: g3 :: g4 :: r2 =>
            match hexVal g1, hexVal g2, hexVal g3, hexVal g4 with
            | some a2, some b2, some c2, some d2 =>
              let lo := ((a2 * 16 + b2) * 16 + c2) * 16 + d2
              if 56320 ≤ lo ∧ lo ≤ 57343 then
                parseStringBody r2
                  (Char.ofNat (65536 + (code - 55296) * 1024 + (lo - 56320)) :: acc)
              else none
            | _, _, _, _ => none
          | _ => none
        else if 56320 ≤ code ∧ code ≤ 57343 then none
        else parseStringBody r (Char.ofNat code :: acc)
      | _, _, _, _ => none
    | _, _ => none
  | c :: rest, acc =>
    if c.toNat < 32 then none else parseStringBody rest (c :: acc)

/-- A run of decimal digits with JSON's no-leading-zero rule, folded into
a natural number. -/
def parseDigits (cs : List Char) : Option (Nat × List Char) :=
  let ds := cs.takeWhile Char.isDigit
  let rest := cs.dropWhile Char.isDigit
  if ds.isEmpty then none
  else if ds.length > 1 ∧ ds.head? = some '0' then none
  else some (ds.foldl (fun n c => n * 10 + (c.toNat - 48)) 0, rest)

/-- Model restriction: a fraction or exponent after the integer part is
outside the model (numbers are modelled as integers; no property under
verification involves a non-integer literal), so such input fails the
parse. -/
def numberTailOk (r : List Char) : Bool :=
  match r with
  | '.' :: _ => false
  | 'e' :: _ => false
  | 'E' :: _ => false
  | _ => true

/-- A JSON number starting at the current position. -/
def parseNumberFrom (cs : List Char) : Option (Json × List Char) :=
  match cs with
  | '-' :: rest =>
    match parseDigits rest with
    | some (n, r) => if numberTailOk r then some (.num (-(n : Int)), r) else none
    | none => none
  | _ =>
    match parseDigits cs with
    | some (n, r) => if numberTailOk r then some (.num (n : Int), r) else none
    | none => none

/-- Add a parsed member to an object under construction, the way property
assignment works in JavaScript (as `JSON.parse` does for duplicate keys):
a repeated key keeps its first position but takes the last value, a new
key is appended.  Objects built this way have pairwise distinct keys. -/
def insertField (fs : List (String × Json)) (k : String) (v : Json) : List (String × Json) :=
  if fs.any (fun kv => kv.1 == k) then
    fs.map (fun kv => if kv.1 == k then (k, v) else kv)
  else fs ++ [(k, v)]

mutual

/-- Recursive-descent JSON value parser modelling `JSON.parse`; the fuel
argument only bounds the recursion depth and is instantiated generously
in `jsonParse` (every recursive call follows the consumption of at least
one input character, so `2 * length + 8` fuel can never run out). -/
def parseValue : Nat → List Char → Option (Json × List Char)
  | 0, _ => none
  | fuel + 1, cs =>
    match skipWs cs with
    | 't' :: 'r' :: 'u' :: 'e' :: rest => some (.bool true, rest)
    | 'f' :: 'a' :: 'l' :: 's' :: 'e' :: rest => some (.bool false, rest)
    | 'n' :: 'u' :: 'l' :: 'l' :: rest => some (.null, rest)
    | '\x22' :: rest =>
      match parseStringBody rest [] with
      | some (s, r) => some (.str s, r)
      | none => none
    | '\x7b' :: rest =>
      match skipWs rest with
      | '\x7d' :: r => some (.obj [], r)
      | _ => parseMembers fuel rest []
    | '[' :: rest =>
      match skipWs rest with
      | ']' :: r => some (.arr [], r)
      | _ => parseElements fuel rest []
    | c :: rest => if c = '-' ∨ c.isDigit then parseNumberFrom (c :: rest) else none
    | [] => none
termination_by structural fuel => fuel

/-- The members of a JSON object, after the opening brace. -/
def parseMembers : Nat → List Char → List (String × Json) → Option (Json × List Char)
  | 0, _, _ => none
  | fuel + 1, cs, acc =>
    match skipWs cs with
    | '\x22' :: rest =>
      match parseStringBody rest [] with
      | some (k, r1) =>
        match skipWs r1 with
        | ':' :: r2 =>
          match parseValue fuel r2 with
          | some (v, r3) =>
            match skipWs r3 with
            | ',' :: r4 => parseMembers fuel r4 (insertField acc k v)
            | '\x7d' :: r4 => some (.obj (insertField acc k v), r4)
            | _ => none
          | none => none
        | _ => none
      | none => none
    | _ => none
termination_by structural fuel => fuel

/-- The elements of a JSON array, after the opening bracket. -/
def parseElements : Nat → List Char → List Json → Option (Json × List Char)
  | 0, _, _ => none
  | fuel + 1, cs, acc =>
    match parseValue fuel cs with
    | some (v, r1) =>
      match skipWs r1 with
      | ',' :: r2 => parseElements fuel r2 (acc ++ [v])
      | ']' :: r2 => some (.arr (acc ++ [v]), r2)
      | _ => none
    | none => none
termination_by structural fuel => fuel

end

/-- `JSON.parse` on a whole text: one value, with only whitespace allowed
after it; any violation (including our model restrictions) is a parse
failure, which the extractor treats as an ignored line. -/
def jsonParse (cs : List Char) : Option Json :=
  match parseValue (2 * cs.length + 8) cs with
  | some (v, rest) => if (skipWs rest).isEmpty then some v else none
  | none => none

/-- `content.split('\n')` worker: `acc` holds the current line reversed. -/
def splitLinesAux : List Char → List Char → List (List Char)
  | [], acc => [acc.reverse]
  | c :: cs, acc =>
    if c = '\n' then acc.reverse :: splitLinesAux cs []
    else splitLinesAux cs (c :: acc)

/-- Models `content.split('\n')` on the character sequence of the input. -/
def splitLines (cs : List Char) : List (List Char) := splitLinesAux cs []

/-- JavaScript `String.prototype.trim` whitespace: ASCII whitespace plus
no-break space and the byte-order mark (the other Unicode space
separators are outside the model; no input under verification contains
them). -/
def isJsSpace (c : Char) : Bool :=
  c == ' ' || c == '\t' || c == '\n' || c == '\r' || c == '\x0b' || c == '\x0c' ||
    c == '\u00A0' || c == '\uFEFF'

/-- `line.trim()`. -/
def jsTrim (cs : List Char) : List Char :=
  ((cs.dropWhile isJsSpace).reverse.dropWhile isJsSpace).reverse

/-- The per-line loop of `extractJsonObjects`: a trimmed line that starts
with an opening brace and ends with a closing brace is parsed (success
appends a record, failure counts the line as ignored); any other
non-blank line is ignored; blank lines are skipped. -/
def extractLines : List (List Char) → ExtractionResult
  | [] => ⟨[], 0⟩
  | line :: rest =>
    let acc := extractLines rest
    let trimmedLine := jsTrim line
    if trimmedLine.head? = some '\x7b' ∧ trimmedLine.getLast? = some '\x7d' then
      match jsonParse trimmedLine with
      | some j => ⟨j :: acc.jsonObjects, acc.ignoredLines⟩
      | none => ⟨acc.jsonObjects, acc.ignoredLines + 1⟩
    else if trimmedLine.length > 0 then ⟨acc.jsonObjects, acc.ignoredLines + 1⟩
    else acc

/-- `extractJsonObjects` from the source. -/
def extractJsonObjects (content : String) : ExtractionResult :=
  extractLines (splitLines content.data)

/-- Spec-side count (for C7): the number of input lines that are
non-blank after trimming. -/
def nonBlankLineCount (content : String) : Nat :=
  ((splitLines content.data).filter (fun l => !(jsTrim l).isEmpty)).length

/-- The input transformation of C10: every newline replaced by a carriage
return followed by a newline. -/
def crlfExpand : List Char → List Char
  | [] => []
  | c :: cs =>
    if c = '\n' then '\x0d' :: '\x0a' :: crlfExpand cs
    else c :: crlfExpand cs

/-! Order lemmas for the lexicographic comparison used by the sort. -/

theorem charsLe_total : ∀ x y : List Char, charsLe x y = true ∨ charsLe y x = true := by
  intro x
  induction x with
  | nil => intro y; left; rfl
  | cons a as ih =>
    intro y
    cases y with
    | nil => right; rfl
    | cons b bs =>
      simp only [charsLe]
      by_cases h1 : a < b
      · left; rw [if_pos h1]
      · by_cases h2 : b < a
        · right; rw [if_pos h2]
        · have hab : a = b := le_antisymm (not_lt.mp h2) (not_lt.mp h1)
          subst hab
          simp only [if_neg (lt_irrefl a)]
          exact ih bs

theorem charsLe_trans : ∀ x y z : List Char,
    charsLe x y = true → charsLe y z = true → charsLe x z = true := by
  intro x
  induction x with
  | nil => intro y z _ _; rfl
  | cons a as ih =>
    intro y z hxy hyz
    cases y with
    | nil => simp [charsLe] at hxy
    | cons b bs =>
      cases z with
      | nil => simp [charsLe] at hyz
      | cons c cs =>
        simp only [charsLe] at hxy hyz ⊢
        by_cases hab : a < b
        · by_cases hbc : b < c
          · rw [if_pos (lt_trans hab hbc)]
          · by_cases hcb : c < b
            · rw [if_neg hbc, if_pos hcb] at hyz
              exact absurd hyz (by simp)
            · have hbceq : b = c := le_antisymm (not_lt.mp hcb) (not_lt.mp hbc)
              subst hbceq
              rw [if_pos hab]
        · by_cases hba : b < a
          · rw [if_neg hab, if_pos hba] at hxy
            exact absurd hxy (by simp)
          · have habeq : a = b := le_antisymm (not_lt.mp hba) (not_lt.mp hab)
            subst habeq
            rw [if_neg (lt_irrefl a), if_neg (lt_irrefl a)] at hxy
            by_cases hac : a < c
            · rw [if_pos hac]
            · by_cases hca : c < a
              · rw [if_neg hac, if_pos hca] at hyz
                exact absurd hyz (by simp)
              · have haceq : a = c := le_antisymm (not_lt.mp hca) (not_lt.mp hac)
                subst haceq
                rw [if_neg (lt_irrefl a), if_neg (lt_irrefl a)] at hyz
                rw [if_neg (lt_irrefl a), if_neg (lt_irrefl a)]
                exact ih bs cs hxy hyz

theorem strLe_total (x y : String) : strLe x y = true ∨ strLe y x = true :=
  charsLe_total x.data y.data

theorem strLe_trans (x y z : String) (h1 : strLe x y = true) (h2 : strLe y z = true) :
    strLe x z = true :=
  charsLe_trans x.data y.data z.data h1 h2

/-! Insertion-sort lemmas. -/

theorem insertSorted_perm (s : String) : ∀ l : List String, (insertSorted s l).Perm (s :: l) := by
  intro l
  induction l with
  | nil => exact List.Perm.refl _
  | cons t ts ih =>
    simp only [insertSorted]
    split
    · exact List.Perm.refl _
    · exact (ih.cons t).trans (List.Perm.swap s t ts)

theorem sortStrings_perm : ∀ l : List String, (sortStrings l).Perm l := by
  intro l
  induction l with
  | nil => exact List.Perm.refl _
  | cons s ss ih =>
    exact (insertSorted_perm s (sortStrings ss)).trans (ih.cons s)

theorem mem_insertSorted {x s : String} {l : List String} :
    x ∈ insertSorted s l ↔ x = s ∨ x ∈ l := by
  constructor
  · intro h
    have := (insertSorted_perm s l).mem_iff.mp h
    simpa using this
  · intro h
    refine (insertSorted_perm s l).mem_iff.mpr ?_
    simpa using h

theorem insertSorted_pairwise (s : String) :
    ∀ l : List String, List.Pairwise (fun a b => strLe a b = true) l →
      List.Pairwise (fun a b => strLe a b = true) (insertSorted s l) := by
  intro l
  induction l with
  | nil => intro _; simp [insertSorted]
  | cons t ts ih =>
    intro h
    rcases List.pairwise_cons.mp h with ⟨ht, hts⟩
    simp only [insertSorted]
    split
    · rename_i hle
      refine List.pairwise_cons.mpr ⟨?_, h⟩
      intro x hx
      rcases List.mem_cons.mp hx with rfl | hx
      · exact hle
      · exact strLe_trans s t x hle (ht x hx)
    · rename_i hnle
      have hts' := ih hts
      refine List.pairwise_cons.mpr ⟨?_, hts'⟩
      intro x hx
      rcases mem_insertSorted.mp hx with rfl | hx
      · rcases strLe_total x t with h1 | h1
        · exact absurd h1 hnle
        · exact h1
      · exact ht x hx

theorem sortStrings_pairwise : ∀ l : List String,
    List.Pairwise (fun a b => strLe a b = true) (sortStrings l) := by
  intro l
  induction l with
  | nil => exact List.Pairwise.nil
  | cons s ss ih => exact insertSorted_pairwise s (sortStrings ss) ih

/-! Catalog lemmas. -/

theorem mem_collectLevels_aux :
    ∀ (logs : List Json) (acc : List String) (x : String),
      (x ∈ logs.foldl
        (fun levels log =>
          match getLevelRaw log with
          | some v =>
              let u := upperStr (jsToString v)
              if levels.contains u then levels else levels ++ [u]
          | none => levels)
        acc) ↔
      x ∈ acc ∨ ∃ log ∈ logs, ∃ v, getLevelRaw log = some v ∧ upperStr (jsToString v) = x := by
  intro logs
  induction logs with
  | nil => intro acc x; simp
  | cons log rest ih =>
    intro acc x
    rw [List.foldl_cons, ih]
    have hstep :
        (x ∈ (match getLevelRaw log with
              | some v =>
                  let u := upperStr (jsToString v)
                  if acc.contains u then acc else acc ++ [u]
              | none => acc)) ↔
        x ∈ acc ∨ ∃ v, getLevelRaw log = some v ∧ upperStr (jsToString v) = x := by
      cases hr : getLevelRaw log with
      | none => simp
      | some v =>
        simp only []
        by_cases hc : acc.contains (upperStr (jsToString v))
        · have hmem : upperStr (jsToString v) ∈ acc := by simpa using hc
          rw [if_pos hc]
          simp only [Option.some.injEq]
          constructor
          · exact fun h => Or.inl h
          · rintro (h | ⟨w, rfl, hx⟩)
            · exact h
            · exact hx ▸ hmem
        · rw [if_neg hc]
          simp only [List.mem_append, List.mem_singleton, Option.some.injEq]
          constructor
          · rintro (h | rfl)
            · exact Or.inl h
            · exact Or.inr ⟨v, rfl, rfl⟩
          · rintro (h | ⟨w, rfl, hx⟩)
            · exact Or.inl h
            · exact Or.inr hx.symm
    rw [hstep]
    constructor
    · rintro ((h | ⟨v, hv, hx⟩) | ⟨log', hlog', v, hv, hx⟩)
      · exact Or.inl h
      · exact Or.inr ⟨log, List.mem_cons_self log rest, v, hv, hx⟩
      · exact Or.inr ⟨log', List.mem_cons_of_mem log hlog', v, hv, hx⟩
    · rintro (h | ⟨log', hlog', v, hv, hx⟩)
      · exact Or.inl (Or.inl h)
      · rcases List.mem_cons.mp hlog' with rfl | hlog'
        · exact Or.inl (Or.inr ⟨v, hv, hx⟩)
        · exact Or.inr ⟨log', hlog', v, hv, hx⟩

theorem mem_collectLevels {x : String} {logs : List Json} :
    x ∈ collectLevels logs ↔
      ∃ log ∈ logs, ∃ v, getLevelRaw log = some v ∧ upperStr (jsToString v) = x := by
  unfold collectLevels
  rw [mem_collectLevels_aux]
  simp

theorem collectLevels_nodup_aux :
    ∀ (logs : List Json) (acc : List String), acc.Nodup →
      (logs.foldl
        (fun levels log =>
          match getLevelRaw log with
          | some v =>
              let u := upperStr (jsToString v)
              if levels.contains u then levels else levels ++ [u]
          | none => levels)
        acc).Nodup := by
  intro logs
  induction logs with
  | nil => intro acc h; simpa using h
  | cons log rest ih =>
    intro acc h
    rw [List.foldl_cons]
    apply ih
    cases hr : getLevelRaw log with
    | none => simpa using h
    | some v =>
      simp only []
      by_cases hc : acc.contains (upperStr (jsToString v))
      · rw [if_pos hc]; exact h
      · rw [if_neg hc]
        have hnm : upperStr (jsToString v) ∉ acc := by simpa using hc
        simp [List.nodup_append, h, hnm]

theorem collectLevels_nodup (logs : List Json) : (collectLevels logs).Nodup :=
  collectLevels_nodup_aux logs [] List.nodup_nil

/-- C1 (amended): `extractLevels` (the catalog) always begins with the
literal label `"ALL"`; its tail is the lexicographically sorted,
duplicate-free list of the distinct labels of exactly those records whose
level field chain yields a truthy value (records that resolve to the
sentinel `"UNKNOWN"` because no level field is present and truthy
contribute no label).  The tail's membership is characterized through
`getLogLevel`, so catalog labels and resolved labels agree on those
records. -/
theorem catalog_characterization : ∀ logs : List Json,
    (extractLevels logs).head? = some "ALL" ∧
    List.Pairwise (fun a b => strLe a b = true ∧ a ≠ b) (extractLevels logs).tail ∧
    ∀ lbl : String, lbl ∈ (extractLevels logs).tail ↔
      ∃ log ∈ logs, ∃ v, getLevelRaw log = some v ∧ getLogLevel log = lbl := by
  intro logs
  refine ⟨rfl, ?_, ?_⟩
  · show List.Pairwise _ (sortStrings (collectLevels logs))
    have hnd : (sortStrings (collectLevels logs)).Nodup :=
      ((sortStrings_perm (collectLevels logs)).nodup_iff).mpr (collectLevels_nodup logs)
    exact (sortStrings_pairwise (collectLevels logs)).and hnd
  · intro lbl
    show lbl ∈ sortStrings (collectLevels logs) ↔ _
    rw [(sortStrings_perm (collectLevels logs)).mem_iff, mem_collectLevels]
    constructor
    · rintro ⟨log, hlog, v, hv, hx⟩
      exact ⟨log, hlog, v, hv, by simp [getLogLevel, hv, hx]⟩
    · rintro ⟨log, hlog, v, hv, hx⟩
      exact ⟨log, hlog, v, hv, by simpa [getLogLevel, hv] using hx⟩

/-- C1 counterexample: the claim as stated is false on the code.  A record
with no level field resolves to `"UNKNOWN"`, yet the catalog of that one
record is just `["ALL"]` — the sentinel label is not included.  Moreover a
record whose level field is `"all"` makes the catalog `["ALL", "ALL"]`,
which does contain a duplicate label. -/
theorem catalog_claim_counterexample :
    getLogLevel (Json.obj []) = "UNKNOWN" ∧
    extractLevels [Json.obj []] = ["ALL"] ∧
    extractLevels [Json.obj [("level", Json.str "all")]] = ["ALL", "ALL"] ∧
    ¬ (extractLevels [Json.obj [("level", Json.str "all")]]).Nodup :=
  ⟨rfl, rfl, rfl, by decide⟩

/-- Supporting evidence for the extractor embedding: the spec's worked
example.  The input has a JSON record line, a free-text line, a malformed
candidate line, a blank line and an empty-object line; extraction yields
the two records and counts two ignored lines. -/
theorem extract_spec_example :
    extractJsonObjects "\x7b\x22level\x22:\x22INFO\x22\x7d\nnot json\n\x7bbad json\x7d\n\n\x7b\x7d" =
      ⟨[Json.obj [("level", Json.str "INFO")], Json.obj []], 2⟩ := by
  rfl

/-- C2 (amended): multi-line pretty-printed JSON is never merged — each
physical line is classified independently, and `extract` applied to the
three-line input consisting of an opening brace line, a member line and a
closing brace line yields zero records and an ignoredCount of THREE
ignored lines (each of the three lines is non-blank and fails the
candidate test, since none both starts with an opening brace and ends
with a closing brace). -/
theorem extract_multiline_never_merged :
    extractJsonObjects "\x7b\n\x22a\x22:1\n\x7d" = ⟨[], 3⟩ := by
  rfl

/-- C2 counterexample: contrary to the claim's count, the ignoredCount on
the three-line pretty-printed input is not two. -/
theorem extract_multiline_count_counterexample :
    ¬ (extractJsonObjects "\x7b\n\x22a\x22:1\n\x7d").ignoredLines = 2 := by
  decide

/-- The priority scan over the four keys equals the source's `||` chain
(with its truthiness test). -/
theorem findSome_level_chain (log : Json) :
    (levelKeys.findSome? fun k =>
      match log.getField k with
      | some v => if jsTruthy v then some v else none
      | none => none) = getLevelRaw log := by
  unfold levelKeys getLevelRaw
  simp only [List.findSome?]
  cases log.getField "level" <;> cases log.getField "severity" <;>
    cases log.getField "log_level" <;> cases log.getField "logLevel" <;>
    simp only [jsOr] <;> (repeat' split) <;> simp_all

/-- C3 (amended): `getLogLevel` inspects the fields `level`, `severity`,
`log_level`, `logLevel` in that fixed priority order; the first of these
fields present with a TRUTHY value (non-empty string, non-zero number,
`true`, or any object/array — but not `0`, `false`, `null` or the empty
string, which the JavaScript `||` chain skips) is converted to text and
upper-cased; if no field has a truthy value the result is the sentinel
`"UNKNOWN"`.  The three concrete examples of the claim hold. -/
theorem resolveLevel_characterization :
    (∀ log : Json, getLogLevel log = resolveLevelSpec log) ∧
    getLogLevel (Json.obj [("severity", Json.str "warn")]) = "WARN" ∧
    getLogLevel (Json.obj []) = "UNKNOWN" ∧
    getLogLevel (Json.obj [("level", Json.str "INFO"), ("severity", Json.str "ERROR")]) = "INFO" := by
  refine ⟨?_, rfl, rfl, rfl⟩
  intro log
  unfold getLogLevel resolveLevelSpec
  rw [findSome_level_chain]

/-- C3 counterexample: a record whose only level field has the value `0`
resolves to `"UNKNOWN"`, not to `"0"` as the claim's reading ("a
non-empty value of any JSON type, including 0, false, or null") implies;
likewise `false` and `null` values are skipped. -/
theorem resolveLevel_claim_counterexample :
    getLogLevel (Json.obj [("level", Json.num 0)]) = "UNKNOWN" ∧
    getLogLevel (Json.obj [("level", Json.bool false)]) = "UNKNOWN" ∧
    getLogLevel (Json.obj [("level", Json.null)]) = "UNKNOWN" ∧
    ("UNKNOWN" : String) ≠ "0" :=
  ⟨rfl, rfl, rfl, by decide⟩

/-! Index and slice lemmas for the hierarchy filter. -/

theorem jsIndexOf_cases : ∀ (l : List String) (x : String),
    (jsIndexOf x l = -1 ∧ x ∉ l) ∨ (∃ n : Nat, jsIndexOf x l = (n : Int) ∧ x ∈ l) := by
  intro l x
  induction l with
  | nil => left; exact ⟨rfl, by simp⟩
  | cons y ys ih =>
    by_cases hxy : y = x
    · right
      exact ⟨0, by simp [jsIndexOf, hxy], by simp [hxy]⟩
    · rcases ih with ⟨h1, h2⟩ | ⟨n, h1, h2⟩
      · left
        refine ⟨by simp [jsIndexOf, hxy, h1], ?_⟩
        intro hx
        rcases List.mem_cons.mp hx with rfl | hx
        · exact hxy rfl
        · exact h2 hx
      · right
        refine ⟨n + 1, ?_, List.mem_cons_of_mem y h2⟩
        have hne : (n : Int) ≠ -1 := by omega
        have hstep : jsIndexOf x (y :: ys) = (n : Int) + 1 := by
          simp [jsIndexOf, hxy, h1, hne]
        rw [hstep]
        omega

theorem contains_drop_iff (H : List String) (i : Nat) (lbl : String) :
    (H.drop i).contains lbl = true ↔ ∃ j, i ≤ j ∧ H.get? j = some lbl := by
  constructor
  · intro h
    have hm : lbl ∈ H.drop i := by simpa using h
    rcases List.mem_iff_get?.mp hm with ⟨n, hn⟩
    rw [List.get?_eq_getElem?, List.getElem?_drop] at hn
    refine ⟨i + n, Nat.le_add_right i n, ?_⟩
    rwa [List.get?_eq_getElem?]
  · rintro ⟨j, hij, hj⟩
    rw [List.get?_eq_getElem?] at hj
    have hd : (H.drop i).get? (j - i) = some lbl := by
      rw [List.get?_eq_getElem?, List.getElem?_drop, Nat.add_sub_cancel' hij]
      exact hj
    have hm : lbl ∈ H.drop i := List.get?_mem hd
    simpa using hm

/-- C4: if the selected level is `"ALL"` every record passes (with an
empty search term the filter is the identity), and if the selected level
occurs in the fixed hierarchy at position `i` (`indexOf` returns `i`),
filtering with an empty search term keeps exactly the records whose
resolved label lies in `hierarchy.slice(i)` — which, by the accompanying
equivalence, are exactly the records whose resolved label occurs in the
hierarchy at some position `≥ i` — in original order. -/
theorem filter_hierarchy_floor :
    (∀ logs : List Json, filterLogs logs "" "ALL" = logs) ∧
    ∀ (logs : List Json) (level : String) (i : Nat),
      jsIndexOf level levelHierarchy = (i : Int) →
        filterLogs logs "" level =
          logs.filter (fun log => (levelHierarchy.drop i).contains (getLogLevel log)) ∧
        ∀ lbl : String, (levelHierarchy.drop i).contains lbl = true ↔
          ∃ j, i ≤ j ∧ levelHierarchy.get? j = some lbl := by
  constructor
  · intro logs
    rfl
  · intro logs level i h
    refine ⟨?_, fun lbl => contains_drop_iff levelHierarchy i lbl⟩
    have hmem : level ∈ levelHierarchy := by
      rcases jsIndexOf_cases levelHierarchy level with ⟨h1, _⟩ | ⟨n, _, h2⟩
      · rw [h] at h1; exact absurd h1 (by omega)
      · exact h2
    have hne : level ≠ "ALL" := by
      intro heq
      rw [heq] at hmem
      revert hmem
      decide
    have hne2 : (i : Int) ≠ -1 := by omega
    unfold filterLogs
    simp only [h, hne, hne2, ne_eq, not_false_eq_true, if_true, not_true_eq_false, if_false]
    rfl

/-- Records labelled DEBUG, INFO, WARN, ERROR, FATAL, used to witness the
hierarchy filter at the spec's example. -/
def demoHierarchyLogs : List Json :=
  [Json.obj [("level", Json.str "DEBUG")], Json.obj [("level", Json.str "INFO")],
   Json.obj [("level", Json.str "WARN")], Json.obj [("level", Json.str "ERROR")],
   Json.obj [("level", Json.str "FATAL")]]

/-- Witness for C4: `"WARN"` sits at position 2 of the hierarchy, the
filter equality holds there, and concretely the WARN, ERROR and FATAL
records come through in original order. -/
theorem filter_hierarchy_floor_witness :
    filterLogs demoHierarchyLogs "" "WARN" =
      demoHierarchyLogs.filter (fun log => (levelHierarchy.drop 2).contains (getLogLevel log)) ∧
    filterLogs demoHierarchyLogs "" "WARN" =
      [Json.obj [("level", Json.str "WARN")], Json.obj [("level", Json.str "ERROR")],
       Json.obj [("level", Json.str "FATAL")]] :=
  ⟨(filter_hierarchy_floor.2 demoHierarchyLogs "WARN" 2 (by decide)).1, rfl⟩

/-- C5: for a selected level that is neither `"ALL"` nor found in the
hierarchy, the level filter degrades to exact match: with an empty search
term, a record passes iff its resolved label equals the selected level
exactly. -/
theorem filter_custom_level_exact :
    ∀ (logs : List Json) (level : String), level ≠ "ALL" → level ∉ levelHierarchy →
      filterLogs logs "" level = logs.filter (fun log => decide (getLogLevel log = level)) := by
  intro logs level hne hnm
  have hidx : jsIndexOf level levelHierarchy = -1 := by
    rcases jsIndexOf_cases levelHierarchy level with ⟨h1, _⟩ | ⟨n, _, h2⟩
    · exact h1
    · exact absurd h2 hnm
  unfold filterLogs
  simp only [hidx, hne, ne_eq, not_false_eq_true, if_true, not_true_eq_false, if_false,
    neg_neg, not_not]
  have hcongr : (fun log => getLogLevel log == level) =
      (fun log => decide (getLogLevel log = level)) := by
    funext log
    by_cases hl : getLogLevel log = level <;> simp [hl]
  rw [hcongr]

/-- Records labelled SUCCESS and INFO, used to witness the exact-match
fallback at the spec's example. -/
def demoSuccessLogs : List Json :=
  [Json.obj [("level", Json.str "SUCCESS")], Json.obj [("level", Json.str "INFO")]]

/-- Witness for C5: `"SUCCESS"` is not in the hierarchy and is not
`"ALL"`, the exact-match equality holds there, and concretely only the
SUCCESS record comes through. -/
theorem filter_custom_level_exact_witness :
    filterLogs demoSuccessLogs "" "SUCCESS" =
      demoSuccessLogs.filter (fun log => decide (getLogLevel log = "SUCCESS")) ∧
    filterLogs demoSuccessLogs "" "SUCCESS" = [Json.obj [("level", Json.str "SUCCESS")]] :=
  ⟨filter_custom_level_exact demoSuccessLogs "SUCCESS" (by decide) (by decide), rfl⟩

/-! Substring lemmas for the search predicate. -/

theorem isPrefixOf_iff_exists : ∀ pat hay : List Char,
    pat.isPrefixOf hay = true ↔ ∃ t, hay = pat ++ t := by
  intro pat
  induction pat with
  | nil => intro hay; simp [List.isPrefixOf]
  | cons p ps ih =>
    intro hay
    cases hay with
    | nil => simp [List.isPrefixOf]
    | cons h hs =>
      simp only [List.isPrefixOf, Bool.and_eq_true, beq_iff_eq]
      rw [ih hs]
      constructor
      · rintro ⟨rfl, t, rfl⟩
        exact ⟨t, rfl⟩
      · rintro ⟨t, ht⟩
        injection ht with h1 h2
        exact ⟨h1.symm, t, h2⟩

theorem charsIncludes_iff : ∀ hay pat : List Char,
    charsIncludes hay pat = true ↔ ∃ l r, hay = l ++ pat ++ r := by
  intro hay
  induction hay with
  | nil =>
    intro pat
    simp only [charsIncludes, List.isEmpty_iff]
    constructor
    · rintro rfl
      exact ⟨[], [], rfl⟩
    · rintro ⟨l, r, h⟩
      rcases List.append_eq_nil.mp h.symm with ⟨h1, h2⟩
      rcases List.append_eq_nil.mp h1 with ⟨_, h3⟩
      exact h3
  | cons c t ih =>
    intro pat
    simp only [charsIncludes, Bool.or_eq_true]
    rw [isPrefixOf_iff_exists, ih]
    constructor
    · rintro (⟨tl, htl⟩ | ⟨l, r, rfl⟩)
      · exact ⟨[], tl, by simpa using htl⟩
      · exact ⟨c :: l, r, rfl⟩
    · rintro ⟨l, r, h⟩
      cases l with
      | nil => exact Or.inl ⟨r, by simpa using h⟩
      | cons x l2 =>
        injection h with h1 h2
        exact Or.inr ⟨l2, r, h2⟩

/-- C6: with the level filter passing everything (`"ALL"`), `filterLogs`
keeps exactly the records for which the lower-cased search term occurs
as a substring of the lower-cased `JSON.stringify` serialization of the
whole record — for every term, including the empty term, which passes
every record.  The second conjunct spells out that `strIncludes` is
substring occurrence, and the third is the claim's concrete example: the
record with nested value `"Boom"` matches the term `"boom"`. -/
theorem search_predicate :
    (∀ (logs : List Json) (term : String),
      filterLogs logs term "ALL" =
        logs.filter (fun log => strIncludes (lowerStr (jsonStringify log)) (lowerStr term))) ∧
    (∀ s pat : String, strIncludes s pat = true ↔ ∃ l r, s.data = l ++ pat.data ++ r) ∧
    filterLogs [Json.obj [("data", Json.obj [("x", Json.str "Boom")])]] "boom" "ALL" =
      [Json.obj [("data", Json.obj [("x", Json.str "Boom")])]] := by
  refine ⟨?_, fun s pat => charsIncludes_iff s.data pat.data, rfl⟩
  intro logs term
  by_cases ht : term = ""
  · subst ht
    have hall : ∀ log : Json,
        strIncludes (lowerStr (jsonStringify log)) (lowerStr "") = true := by
      intro log
      show charsIncludes (lowerStr (jsonStringify log)).data ([] : List Char) = true
      cases (lowerStr (jsonStringify log)).data <;> rfl
    rw [List.filter_eq_self.mpr (fun a _ => hall a)]
    rfl
  · simp only [filterLogs, ne_eq, not_true_eq_false, if_false, ht, not_false_eq_true, if_true]

/-! Partition lemma for the extractor. -/

theorem extractLines_partition : ∀ ls : List (List Char),
    (extractLines ls).jsonObjects.length + (extractLines ls).ignoredLines =
      (ls.filter (fun l => !(jsTrim l).isEmpty)).length := by
  intro ls
  induction ls with
  | nil => rfl
  | cons line rest ih =>
    simp only [extractLines]
    by_cases hc : (jsTrim line).head? = some '\x7b' ∧ (jsTrim line).getLast? = some '\x7d'
    · rw [if_pos hc]
      have hne : (jsTrim line).isEmpty = false := by
        rcases hc with ⟨h1, _⟩
        cases htr : jsTrim line with
        | nil => rw [htr] at h1; simp at h1
        | cons a b => rfl
      cases hp : jsonParse (jsTrim line) with
      | some j =>
        simp only [List.filter_cons, hne, Bool.not_false, if_true, List.length_cons]
        omega
      | none =>
        simp only [List.filter_cons, hne, Bool.not_false, if_true, List.length_cons]
        omega
    · rw [if_neg hc]
      by_cases hlen : (jsTrim line).length > 0
      · rw [if_pos hlen]
        have hne : (jsTrim line).isEmpty = false := by
          cases htr : jsTrim line with
          | nil => rw [htr] at hlen; simp at hlen
          | cons a b => rfl
        simp only [List.filter_cons, hne, Bool.not_false, if_true, List.length_cons]
        omega
      · rw [if_neg hlen]
        have hem : (jsTrim line).isEmpty = true := by
          cases htr : jsTrim line with
          | nil => rfl
          | cons a b => rw [htr] at hlen; simp at hlen
        simp only [List.filter_cons, hem, Bool.not_true, if_false]
        exact ih

/-- C7: for every input text, the number of extracted records plus the
ignoredCount equals the number of lines that are non-blank after
trimming — every non-blank line is counted exactly once, as a record or
as ignored, and blank lines are counted as neither; and extraction of
the empty text yields no records and an ignoredCount of zero. -/
theorem extract_partitions_lines :
    (∀ content : String,
      (extractJsonObjects content).jsonObjects.length +
        (extractJsonObjects content).ignoredLines = nonBlankLineCount content) ∧
    extractJsonObjects "" = ⟨[], 0⟩ := by
  refine ⟨?_, rfl⟩
  intro content
  exact extractLines_partition (splitLines content.data)

/-- C8: for every record set, search term and selected level, the output
of `filterLogs` is a subsequence of the input records: each returned
record occurs in the input, each input occurrence is used at most once,
and the original relative order is preserved.  (In the embedding the
record set is an explicit input and `filterLogs` is applied to the full
set, mirroring how the source always filters the complete `logs` state,
never a previously filtered result.) -/
theorem filterLogs_sublist :
    ∀ (logs : List Json) (term level : String), (filterLogs logs term level).Sublist logs := by
  intro logs term level
  simp only [filterLogs]
  split
  · refine (List.filter_sublist _).trans ?_
    split
    · split
      · exact List.filter_sublist _
      · exact List.filter_sublist _
    · exact List.Sublist.refl logs
  · split
    · split
      · exact List.filter_sublist _
      · exact List.filter_sublist _
    · exact List.Sublist.refl logs

theorem filter_filter_self {α : Type} (p : α → Bool) (l : List α) :
    (l.filter p).filter p = l.filter p :=
  List.filter_eq_self.mpr (fun _ ha => (List.mem_filter.mp ha).2)

theorem filter_pair_idem {α : Type} (p q : α → Bool) (l : List α) :
    ((((l.filter p).filter q).filter p).filter q) = (l.filter p).filter q := by
  have h1 : ((l.filter p).filter q).filter p = (l.filter p).filter q :=
    List.filter_eq_self.mpr
      (fun a ha => (List.mem_filter.mp (List.mem_filter.mp ha).1).2)
  rw [h1]
  exact filter_filter_self q (l.filter p)

/-- C9: `filterLogs` is deterministic — two calls on identical arguments
give identical results (in this pure embedding the input list cannot be
mutated by a call, which models the absence of hidden mutation in the
source: `Array.prototype.filter` returns a new array) — and it is
idempotent: filtering an already filtered result with the same term and
level changes nothing. -/
theorem filterLogs_deterministic_idempotent :
    ∀ (logs : List Json) (term level : String),
      filterLogs logs term level = filterLogs logs term level ∧
      filterLogs (filterLogs logs term level) term level = filterLogs logs term level := by
  intro logs term level
  refine ⟨rfl, ?_⟩
  by_cases hl : level = "ALL" <;> by_cases ht : term = ""
  · subst hl; subst ht; rfl
  · subst hl
    simp only [filterLogs, ne_eq, not_true_eq_false, if_false, ht, not_false_eq_true, if_true]
    exact filter_filter_self _ logs
  · subst ht
    simp only [filterLogs, ne_eq, hl, not_false_eq_true, if_true, not_true_eq_false, if_false]
    by_cases hi : jsIndexOf level levelHierarchy = -1
    · simp only [hi, not_true_eq_false, if_false]
      exact filter_filter_self _ logs
    · simp only [hi, not_false_eq_true, if_true]
      exact filter_filter_self _ logs
  · simp only [filterLogs, ne_eq, hl, ht, not_false_eq_true, if_true]
    by_cases hi : jsIndexOf level levelHierarchy = -1
    · simp only [hi, not_true_eq_false, if_false]
      exact filter_pair_idem _ _ logs
    · simp only [hi, not_false_eq_true, if_true]
      exact filter_pair_idem _ _ logs

/-! Line-splitting lemmas for carriage-return insensitivity (C10). -/

/-- Appending a trailing carriage return to every line but the last: the
effect of the CRLF transformation on the line split. -/
def addCr : List (List Char) → List (List Char)
  | [] => []
  | [l] => [l]
  | l :: ls => (l ++ ['\x0d']) :: addCr ls

theorem splitLinesAux_ne_nil : ∀ (cs acc : List Char), splitLinesAux cs acc ≠ [] := by
  intro cs
  induction cs with
  | nil => intro acc; simp [splitLinesAux]
  | cons c cs ih =>
    intro acc
    simp only [splitLinesAux]
    split
    · simp
    · exact ih (c :: acc)

theorem addCr_cons (l : List Char) (ls : List (List Char)) (h : ls ≠ []) :
    addCr (l :: ls) = (l ++ ['\x0d']) :: addCr ls := by
  cases ls with
  | nil => exact absurd rfl h
  | cons a as => rfl

theorem splitLinesAux_crlf : ∀ (cs acc : List Char),
    splitLinesAux (crlfExpand cs) acc = addCr (splitLinesAux cs acc) := by
  intro cs
  induction cs with
  | nil => intro acc; rfl
  | cons c cs ih =>
    intro acc
    by_cases hc : c = '\x0a'
    · subst hc
      show ('\x0d' :: acc).reverse :: splitLinesAux (crlfExpand cs) []
          = addCr (acc.reverse :: splitLinesAux cs [])
      rw [ih [], addCr_cons _ _ (splitLinesAux_ne_nil cs []), List.reverse_cons]
    · have h1 : crlfExpand (c :: cs) = c :: crlfExpand cs := by
        simp [crlfExpand, hc]
      have h2 : splitLinesAux (c :: crlfExpand cs) acc = splitLinesAux (crlfExpand cs) (c :: acc) := by
        simp [splitLinesAux, hc]
      have h3 : splitLinesAux (c :: cs) acc = splitLinesAux cs (c :: acc) := by
        simp [splitLinesAux, hc]
      rw [h1, h2, h3, ih]

theorem dropWhile_append_cr : ∀ l : List Char,
    (l ++ ['\x0d']).dropWhile isJsSpace =
      if (l.dropWhile isJsSpace).isEmpty then [] else l.dropWhile isJsSpace ++ ['\x0d'] := by
  intro l
  induction l with
  | nil => rfl
  | cons a l ih =>
    by_cases ha : isJsSpace a = true
    · simp only [List.cons_append, List.dropWhile_cons, ha, if_true, ih]
    · simp only [List.cons_append, List.dropWhile_cons, ha, if_false, Bool.false_eq_true,
        List.isEmpty_cons]

theorem jsTrim_append_cr (l : List Char) : jsTrim (l ++ ['\x0d']) = jsTrim l := by
  unfold jsTrim
  rw [dropWhile_append_cr]
  by_cases he : (l.dropWhile isJsSpace).isEmpty
  · rw [if_pos he]
    have hnil : l.dropWhile isJsSpace = [] := List.isEmpty_iff.mp he
    rw [hnil]
  · rw [if_neg he, List.reverse_append]
    simp [List.dropWhile_cons, isJsSpace]

theorem extractLines_addCr : ∀ ls : List (List Char), extractLines (addCr ls) = extractLines ls := by
  intro ls
  induction ls with
  | nil => rfl
  | cons l rest ih =>
    cases rest with
    | nil => rfl
    | cons l2 ls2 =>
      show extractLines ((l ++ ['\x0d']) :: addCr (l2 :: ls2)) = extractLines (l :: l2 :: ls2)
      simp only [extractLines, jsTrim_append_cr, ih]

/-- C10: `extract` is insensitive to Windows line endings — for input
text containing no carriage returns, replacing every newline by a
carriage return followed by a newline yields the same extraction result
(same records in the same order and the same ignoredCount), because each
line is trimmed (stripping the trailing carriage return) before
candidate classification, parsing and blank-line detection. -/
theorem extract_crlf_insensitive :
    ∀ content : String, (∀ c ∈ content.data, c ≠ '\x0d') →
      extractJsonObjects (String.mk (crlfExpand content.data)) = extractJsonObjects content := by
  intro content _
  show extractLines (splitLines (crlfExpand content.data)) = extractLines (splitLines content.data)
  unfold splitLines
  rw [splitLinesAux_crlf]
  exact extractLines_addCr (splitLinesAux content.data [])

/-- Witness for C10 at a concrete two-line input (a free-text line and a
JSON record line) that contains no carriage return. -/
theorem extract_crlf_insensitive_witness :
    (∀ c ∈ ("a\n\x7b\x22level\x22:\x22INFO\x22\x7d" : String).data, c ≠ '\x0d') ∧
    extractJsonObjects
        (String.mk (crlfExpand ("a\n\x7b\x22level\x22:\x22INFO\x22\x7d" : String).data)) =
      extractJsonObjects "a\n\x7b\x22level\x22:\x22INFO\x22\x7d" :=
  ⟨by decide, extract_crlf_insensitive "a\n\x7b\x22level\x22:\x22INFO\x22\x7d" (by decide)⟩
